import Mathlib

/-!
Verification of the feature-consolidation routine of the x402Arcade
maintenance scripts (`consolidate_features.py`).

The Python source is shallowly embedded below:
pure functions become Lean functions, the SQLite store becomes an explicit
`DBState` record threaded through the operations, Python exceptions become
`Option`/`Except` results, and Python `str` becomes Lean `String` (substring
and whitespace questions are settled on the underlying `List Char`).
-/

namespace Consolidation

/-- Feature mirrors the `Feature` dataclass of `consolidate_features.py`:
one row of the tracked `features` table. -/
structure Feature where
  id : Int
  priority : Int
  category : String
  name : String
  description : String
  steps : List String
  passes : Bool
  in_progress : Bool
  blocked_by_intervention_id : Option Int
  deferred : Bool
deriving DecidableEq, Inhabited

/-- Rules mirrors the dict returned by
`FeatureConsolidator.get_consolidation_rules`: the keys that occur are
`target_count`, `consolidation_factor` and `groups`; a missing key is `none`
(resp. the empty list for `groups`). -/
structure Rules where
  target_count : Option Nat
  consolidation_factor : Option Nat
  groups : List (Nat × Nat × String)
deriving DecidableEq

/-- Embedding of `FeatureConsolidator.get_consolidation_rules`.  The Python
`rules` dict has the two keys "Audio System" and "default", so the membership
test `category in rules` succeeds exactly for those two strings; every other
category takes the fallback branch. -/
def get_consolidation_rules (category : String) (feature_count : Nat) : Rules :=
  if category = "Audio System" then
    { target_count := some 12
      consolidation_factor := none
      groups :=
        [ (0, 10, "Setup Audio Infrastructure")
        , (10, 18, "Implement Sound Effects System")
        , (18, 25, "Implement Music System")
        , (25, 38, "Add UI Sound Effects")
        , (38, 50, "Add Snake Game Audio")
        , (50, 62, "Add Tetris Game Audio")
        , (62, 72, "Add Arcade-Wide Audio")
        , (72, 78, "Implement Audio Accessibility")
        , (78, 85, "Optimize Audio Performance")
        , (85, 92, "Create Audio UI Components")
        , (92, 100, "Implement Audio Persistence & Mixing") ] }
  else if category = "default" then
    { target_count := none, consolidation_factor := some 3, groups := [] }
  else
    { target_count := some (max 3 (feature_count / 3))
      consolidation_factor := some 3
      groups := [] }

/-- Embedding of the status glyph chosen in `merge_steps`. -/
def status_icon (passes : Bool) : String := if passes then "✓" else "○"

/-- Embedding of `FeatureConsolidator.merge_steps`: for each child, one
marker line containing the status glyph and the child's name, followed by
the child's own steps, each indented with four spaces and a dash. -/
def merge_steps (child_features : List Feature) : List String :=
  child_features.flatMap (fun child =>
    ("[" ++ status_icon child.passes ++ "] " ++ child.name) ::
      child.steps.map (fun step => "    - " ++ step))

/-- Whitespace set of Python `str.split()` (the ASCII part; the names in this
data set contain no exotic Unicode whitespace). -/
def pyIsSpace (c : Char) : Bool :=
  c = ' ' || c = '\t' || c = '\n' || c = '\r' || c = '\x0b' || c = '\x0c'

/-- Embedding of Python `s.split()[0]`: the first whitespace-delimited word
of `s`, or `none` when `s.split()` is empty (in which case the Python
subscript raises `IndexError`). -/
def pyFirstWord (s : String) : Option String :=
  match s.data.dropWhile pyIsSpace with
  | [] => none
  | c :: cs => some (String.mk ((c :: cs).takeWhile (fun ch => !pyIsSpace ch)))

/-- The parent name expression of `consolidate_category` (line 138):
`f"Implement {group[0].name.split()[0]} Subsystem" if len(group) > 1 else
group[0].name`; `none` is the Python `IndexError` raised by the subscript
when the first record's name has no word. -/
def parentNameOpt (g0 : Feature) (rest : List Feature) : Option String :=
  if rest.isEmpty then some g0.name
  else (pyFirstWord g0.name).map (fun w => "Implement " ++ w ++ " Subsystem")

/-- The record built by the `parent = Feature(...)` call, given the already
computed name. -/
def parentRecord (category : String) (g0 : Feature) (rest : List Feature)
    (nm : String) : Feature :=
  { id := g0.id
    priority := rest.foldl (fun a f => min a f.priority) g0.priority
    category := category
    name := nm
    description := "Bundle of " ++ toString (g0 :: rest).length ++
      " related features:\n" ++
      String.intercalate "\n" ((g0 :: rest).map (fun f => "- " ++ f.name))
    steps := merge_steps (g0 :: rest)
    passes := (g0 :: rest).all Feature.passes
    in_progress := (g0 :: rest).any Feature.in_progress
    blocked_by_intervention_id := none
    deferred := (g0 :: rest).any Feature.deferred }

/-- Embedding of the `parent = Feature(...)` constructor call inside the loop
of `FeatureConsolidator.consolidate_category` (lines 134-145): one
consolidated parent synthesized from one chunk; `none` when building the
name raises.  An empty group never occurs. -/
def makeParent (category : String) (group : List Feature) : Option Feature :=
  match group with
  | [] => none
  | g0 :: rest => (parentNameOpt g0 rest).map (parentRecord category g0 rest)

/-- Fuel-indexed worker for `chunkList`; the fuel only serves to make the
recursion structural (it is always instantiated with the list length). -/
def chunkAux (factor : Nat) : Nat → List Feature → List (List Feature)
  | _, [] => []
  | 0, _ :: _ => []
  | fuel + 1, x :: xs => (x :: xs.take (factor - 1)) :: chunkAux factor fuel (xs.drop (factor - 1))

/-- Embedding of the Python slicing loop
`for i in range(0, len(features), factor): group = features[i:i+factor]`:
the list cut into consecutive chunks of `factor` records, the last chunk
possibly shorter (faithful for `factor ≥ 1`, the only values used). -/
def chunkList (factor : Nat) (l : List Feature) : List (List Feature) :=
  chunkAux factor l.length l

/-- Sequence a fallible constructor over a list: `some` of all results when
every element succeeds, `none` as soon as one fails (the Python exception
aborting the whole loop). -/
def traverseOpt (f : α → Option β) : List α → Option (List β)
  | [] => some []
  | x :: xs =>
    match f x, traverseOpt f xs with
    | some y, some ys => some (y :: ys)
    | _, _ => none

/-- Embedding of `FeatureConsolidator.consolidate_category`.  Note that the
code only implements the `"consolidation_factor" in rules` branch: a rule set
without that key (the hand-authored "Audio System" rules) falls through to
`return features`, leaving the category untouched. -/
def consolidate_category (features : List Feature) (category : String) :
    Option (List Feature) :=
  if features.length ≤ 3 then some features
  else
    let rules := get_consolidation_rules category features.length
    if rules.consolidation_factor.isSome then
      let factor : Nat := if 50 < features.length then 4 else 3
      traverseOpt (makeParent category) (chunkList factor features)
    else
      some features

/-- Total step count of a record collection, as summed in
`FeatureConsolidator.validate`. -/
def totalSteps (l : List Feature) : Nat := (l.map (fun f => f.steps.length)).sum

/-- Code-point comparison of strings, the order Python's `sorted` uses on
`str` keys (the built-in `String` order of Lean is not kernel-computable,
so the comparison is spelled out on the character lists). -/
def charsLe : List Char → List Char → Bool
  | [], _ => true
  | _ :: _, [] => false
  | a :: as, b :: bs =>
    if a.toNat < b.toNat then true
    else if b.toNat < a.toNat then false
    else charsLe as bs

/-- Insert a string into an already sorted list of strings. -/
def insertSorted (s : String) : List String → List String
  | [] => [s]
  | t :: ts => if charsLe s.data t.data then s :: t :: ts else t :: insertSorted s ts

/-- Embedding of Python `sorted` on a list of distinct strings (insertion
sort; on distinct keys every correct sort returns the same list). -/
def sortStrings (l : List String) : List String := l.foldr insertSorted []

/-- The distinct categories of a record list, in first-occurrence order:
the key set of the `by_category` dict built in
`FeatureConsolidator.consolidate_all`. -/
def distinctCategories (features : List Feature) : List String :=
  (features.map Feature.category).foldl
    (fun acc c => if c ∈ acc then acc else acc ++ [c]) []

/-- Statistics summary computed by `FeatureConsolidator.consolidate_all`:
total before/after counts and the per-category (name, before, after)
triples in report order.  (The percentage string of the Python dict is a
pure function of the before/after pair and is not carried separately.) -/
structure Stats where
  before : Nat
  after : Nat
  by_category : List (String × Nat × Nat)
deriving DecidableEq, Inhabited

/-- One iteration of the category loop of `consolidate_all`: the category
name, its records (in input order, as the insertion-ordered dict holds
them) and their consolidation. -/
def catResult (features : List Feature) (c : String) :
    Option (String × List Feature × List Feature) :=
  let cf := features.filter (fun f => f.category = c)
  (consolidate_category cf c).map (fun out => (c, cf, out))

/-- Embedding of `FeatureConsolidator.consolidate_all`: group by category,
consolidate each category in lexicographic category order, concatenate,
and report the statistics. -/
def consolidate_all (features : List Feature) : Option (List Feature × Stats) :=
  (traverseOpt (catResult features) (sortStrings (distinctCategories features))).map
    (fun triples =>
      let consolidated_all := triples.flatMap (fun t => t.2.2)
      (consolidated_all,
        { before := features.length
          after := consolidated_all.length
          by_category := triples.map (fun t => (t.1, t.2.1.length, t.2.2.length)) }))

/-- Outcome of `FeatureConsolidator.validate`: one of the two `assert`
failures, or success with resp. without the step-count warning. -/
inductive ValidateOutcome where
  | invariantError (msg : String)
  | okWarn
  | okPreserved
deriving DecidableEq

/-- Embedding of `FeatureConsolidator.validate`: the two asserts in source
order, then the warn-or-ok report on the step counts. -/
def validate (original consolidated : List Feature) : ValidateOutcome :=
  let orig_steps := totalSteps original
  let cons_steps := totalSteps consolidated
  if ¬ consolidated.length < original.length then
    .invariantError "No consolidation happened!"
  else if ¬ (250 ≤ consolidated.length ∧ consolidated.length ≤ 600) then
    .invariantError "Target range missed"
  else if cons_steps < orig_steps then .okWarn
  else .okPreserved

/-- State of the SQLite file as the script sees it: the three table names it
touches, each either absent (`none`) or holding an ordered row list. -/
structure DBState where
  features : Option (List Feature)
  features_old : Option (List Feature)
  features_consolidated : Option (List Feature)
deriving DecidableEq

/-- The primitive SQL statements issued inside the transaction of
`FeatureConsolidator.execute_migration`, in source order. -/
inductive MigOp where
  | createStaging
  | insertRow (f : Feature)
  | dropOldIfExists
  | renameFeaturesToOld
  | renameStagingToFeatures
deriving DecidableEq

/-- SQLite semantics of one migration statement: `none` is a statement
error (table already exists, table missing, rename target taken). -/
def applyOp : MigOp → DBState → Option DBState
  | .createStaging, s =>
    match s.features_consolidated, s.features with
    | some _, _ => none
    | none, none => none
    | none, some _ => some { s with features_consolidated := some [] }
  | .insertRow f, s =>
    match s.features_consolidated with
    | none => none
    | some rows => some { s with features_consolidated := some (rows ++ [f]) }
  | .dropOldIfExists, s => some { s with features_old := none }
  | .renameFeaturesToOld, s =>
    match s.features, s.features_old with
    | some rows, none =>
      some { s with features := none, features_old := some rows }
    | _, _ => none
  | .renameStagingToFeatures, s =>
    match s.features_consolidated, s.features with
    | some rows, none =>
      some { s with features := some rows, features_consolidated := none }
    | _, _ => none

/-- The statement sequence of `execute_migration` between `BEGIN` and
`COMMIT`: create the staging table, insert every consolidated row, then
swap the tables. -/
def migrationOps (consolidated : List Feature) : List MigOp :=
  MigOp.createStaging :: consolidated.map MigOp.insertRow ++
    [MigOp.dropOldIfExists, MigOp.renameFeaturesToOld, MigOp.renameStagingToFeatures]

/-- Run the statements of a transaction from index `i`; `failAt = some k`
injects an external failure (connection loss, malformed row, ...) right
before statement `k`.  The error value is the index of the statement that
raised: the cause carried by the re-raised exception. -/
def runOps (failAt : Option Nat) : List MigOp → Nat → DBState → Except Nat DBState
  | [], _, s => .ok s
  | op :: ops, i, s =>
    if failAt = some i then .error i
    else
      match applyOp op s with
      | none => .error i
      | some s' => runOps failAt ops (i + 1) s'

/-- Embedding of `FeatureConsolidator.execute_migration`: run the statement
sequence inside one transaction; on success `COMMIT` keeps the final state,
on any exception `ROLLBACK` restores the state snapshotted at `BEGIN` and
the exception is re-raised (the `Except.error` carrying its cause). -/
def execute_migration (s : DBState) (consolidated : List Feature)
    (failAt : Option Nat) : Except Nat Unit × DBState :=
  match runOps failAt (migrationOps consolidated) 0 s with
  | .ok s' => (.ok (), s')
  | .error i => (.error i, s)

/-- Stable insertion of a record into a priority-sorted list. -/
def insertByPriority (f : Feature) : List Feature → List Feature
  | [] => [f]
  | g :: gs => if f.priority ≤ g.priority then f :: g :: gs else g :: insertByPriority f gs

/-- Deterministic embedding of `ORDER BY priority` (a stable sort). -/
def sortByPriority (l : List Feature) : List Feature := l.foldr insertByPriority []

/-- Embedding of `FeatureConsolidator.get_all_features` (the `SELECT ...
ORDER BY priority`): a pure read of the live table; `none` when the table
is missing (`StorageError`). -/
def get_all_features (s : DBState) : Option (List Feature) :=
  s.features.map sortByPriority

/-- Embedding of the dry-run path of `main` (`--dry-run`): load, consolidate,
report statistics, validate — and never call `execute_migration`.  The
returned state is the store after the action. -/
def previewAction (s : DBState) : Option (Stats × ValidateOutcome) × DBState :=
  match get_all_features s with
  | none => (none, s)
  | some original =>
    match consolidate_all original with
    | none => (none, s)
    | some (consolidated, stats) => (some (stats, validate original consolidated), s)

/-- A step string is locatable within a record when it occurs as a verbatim
substring of one of the record's step strings. -/
def stepLocatable (s : String) (r : Feature) : Prop :=
  ∃ t ∈ r.steps, s.data <:+: t.data

instance (s : String) (r : Feature) : Decidable (stepLocatable s r) :=
  inferInstanceAs (Decidable (∃ t ∈ r.steps, s.data <:+: t.data))

/-! Concrete record collections used to instantiate the theorems below. -/

def mkF (i pr : Int) (cat nm : String) (st : List String) (ps : Bool) : Feature :=
  { id := i, priority := pr, category := cat, name := nm, description := ""
  , steps := st, passes := ps, in_progress := false
  , blocked_by_intervention_id := none, deferred := false }

/-- Four records in one ordinary category. -/
def W4 : List Feature :=
  [ mkF 1 5 "X" "Alpha one" ["a1", "a2"] true
  , mkF 2 3 "X" "Beta two" ["b1"] true
  , mkF 3 9 "X" "Gamma three" [] false
  , mkF 4 7 "X" "Delta four" ["d1"] true ]

def w4out : List Feature := (consolidate_category W4 "X").getD []

/-- Fifty-one records in one ordinary category. -/
def W51 : List Feature :=
  (List.range 51).map (fun i => mkF (Int.ofNat i) (Int.ofNat i) "X"
    ("Node " ++ toString i) ["s"] true)

/-- Fifty records in one ordinary category. -/
def W50 : List Feature := W51.take 50

/-- Four records in the special-cased "Audio System" category. -/
def audio4 : List Feature :=
  [ mkF 1 1 "Audio System" "Create audio manager" ["am1"] true
  , mkF 2 2 "Audio System" "Load sound assets" ["la1"] true
  , mkF 3 3 "Audio System" "Play effects" [] false
  , mkF 4 4 "Audio System" "Mix channels" ["mc1"] true ]

/-- Four records in one category where the step string "dup" occurs in two
records that land in different chunks. -/
def wDup : List Feature :=
  [ mkF 1 1 "X" "Alpha one" ["dup"] true
  , mkF 2 2 "X" "Beta" [] true
  , mkF 3 3 "X" "Gamma" [] true
  , mkF 4 4 "X" "Delta" ["dup"] true ]

def wDupPair : List Feature × Stats :=
  (consolidate_all wDup).getD ([], { before := 0, after := 0, by_category := [] })

/-- Four records whose first chunk head has an all-whitespace name. -/
def wBad4 : List Feature :=
  [ mkF 1 1 "X" "   " ["a"] true
  , mkF 2 2 "X" "B" [] true
  , mkF 3 3 "X" "C" [] true
  , mkF 4 4 "X" "D" [] true ]

/-- A live store with a leftover backup table, and a consolidated row list,
for exercising the migration. -/
def dbW : DBState :=
  { features := some W4
  , features_old := some [mkF 9 9 "X" "Old" [] true]
  , features_consolidated := none }

def consW : List Feature := W4.take 2

/-! Basic facts about `chunkAux` and `chunkList`. -/

theorem chunkAux_nil (factor fuel : Nat) : chunkAux factor fuel [] = [] := by
  cases fuel <;> rfl

theorem chunkAux_congr (factor : Nat) : ∀ (fuel₁ : Nat) (l : List Feature) (fuel₂ : Nat),
    l.length ≤ fuel₁ → l.length ≤ fuel₂ → chunkAux factor fuel₁ l = chunkAux factor fuel₂ l := by
  intro fuel₁
  induction fuel₁ with
  | zero =>
    intro l fuel₂ h1 _
    have hl : l = [] := List.length_eq_zero.mp (Nat.le_zero.mp h1)
    subst hl
    rw [chunkAux_nil, chunkAux_nil]
  | succ n ih =>
    intro l fuel₂ h1 h2
    cases l with
    | nil => rw [chunkAux_nil, chunkAux_nil]
    | cons x xs =>
      cases fuel₂ with
      | zero => simp at h2
      | succ m =>
        simp only [chunkAux]
        have hd : (xs.drop (factor - 1)).length ≤ xs.length := by
          rw [List.length_drop]; omega
        have h1' : xs.length ≤ n := by simp at h1; omega
        have h2' : xs.length ≤ m := by simp at h2; omega
        rw [ih (xs.drop (factor - 1)) m (le_trans hd h1') (le_trans hd h2')]

theorem chunkList_cons (factor : Nat) (x : Feature) (xs : List Feature) :
    chunkList factor (x :: xs) =
      (x :: xs.take (factor - 1)) :: chunkList factor (xs.drop (factor - 1)) := by
  unfold chunkList
  simp only [List.length_cons, chunkAux]
  congr 1
  exact chunkAux_congr factor xs.length (xs.drop (factor - 1)) (xs.drop (factor - 1)).length
    (by rw [List.length_drop]; omega) le_rfl

theorem chunkList_flatten (factor : Nat) (l : List Feature) :
    (chunkList factor l).flatten = l := by
  suffices h : ∀ (fuel : Nat) (l : List Feature), l.length ≤ fuel →
      (chunkList factor l).flatten = l from h l.length l le_rfl
  intro fuel
  induction fuel with
  | zero =>
    intro l h
    have hl : l = [] := List.length_eq_zero.mp (Nat.le_zero.mp h)
    subst hl; rfl
  | succ n ih =>
    intro l h
    cases l with
    | nil => rfl
    | cons x xs =>
      rw [chunkList_cons, List.flatten_cons,
        ih (xs.drop (factor - 1)) (by rw [List.length_drop]; simp at h; omega)]
      simp [List.take_append_drop]

theorem chunkList_length (factor : Nat) (hf : 1 ≤ factor) (l : List Feature) :
    (chunkList factor l).length = (l.length + factor - 1) / factor := by
  suffices h : ∀ (fuel : Nat) (l : List Feature), l.length ≤ fuel →
      (chunkList factor l).length = (l.length + factor - 1) / factor from h l.length l le_rfl
  intro fuel
  induction fuel with
  | zero =>
    intro l h
    have hl : l = [] := List.length_eq_zero.mp (Nat.le_zero.mp h)
    subst hl
    show (0 : Nat) = (0 + factor - 1) / factor
    rw [Nat.div_eq_of_lt (by omega)]
  | succ n ih =>
    intro l h
    cases l with
    | nil =>
      show (0 : Nat) = (0 + factor - 1) / factor
      rw [Nat.div_eq_of_lt (by omega)]
    | cons x xs =>
      rw [chunkList_cons, List.length_cons,
        ih (xs.drop (factor - 1)) (by rw [List.length_drop]; simp at h; omega),
        List.length_drop, List.length_cons]
      have h2 : xs.length + 1 + factor - 1 = xs.length + factor := by omega
      rw [h2, Nat.add_div_right _ (by omega)]
      rcases le_or_lt (factor - 1) xs.length with hle | hlt
      · have h3 : xs.length - (factor - 1) + factor - 1 = xs.length := by omega
        rw [h3]
      · have h3 : xs.length - (factor - 1) = 0 := by omega
        rw [h3, Nat.div_eq_of_lt (by omega : 0 + factor - 1 < factor),
          Nat.div_eq_of_lt (by omega : xs.length < factor)]

theorem chunkList_ne_nil (factor : Nat) (l : List Feature) :
    ∀ g ∈ chunkList factor l, g ≠ [] := by
  suffices h : ∀ (fuel : Nat) (l : List Feature), l.length ≤ fuel →
      ∀ g ∈ chunkList factor l, g ≠ [] from h l.length l le_rfl
  intro fuel
  induction fuel with
  | zero =>
    intro l h g hg
    have hl : l = [] := List.length_eq_zero.mp (Nat.le_zero.mp h)
    subst hl
    simp [chunkList, chunkAux_nil] at hg
  | succ n ih =>
    intro l h g hg
    cases l with
    | nil => simp [chunkList, chunkAux_nil] at hg
    | cons x xs =>
      rw [chunkList_cons] at hg
      rcases List.mem_cons.mp hg with h1 | h1
      · subst h1; exact List.cons_ne_nil _ _
      · exact ih (xs.drop (factor - 1)) (by rw [List.length_drop]; simp at h; omega) g h1

theorem exists_chunk_mem (factor : Nat) (l : List Feature) (a : Feature) (ha : a ∈ l) :
    ∃ g ∈ chunkList factor l, a ∈ g := by
  have h : a ∈ (chunkList factor l).flatten := by rw [chunkList_flatten]; exact ha
  exact List.mem_flatten.mp h

/-! Basic facts about `traverseOpt`. -/

theorem traverseOpt_length (f : α → Option β) : ∀ (l : List α) (out : List β),
    traverseOpt f l = some out → out.length = l.length := by
  intro l
  induction l with
  | nil => intro out h; cases h; rfl
  | cons x xs ih =>
    intro out h
    simp only [traverseOpt] at h
    split at h
    · cases h
      simp only [List.length_cons]
      congr 1
      exact ih _ (by assumption)
    · exact Option.noConfusion h

theorem traverseOpt_mem_fwd (f : α → Option β) : ∀ (l : List α) (out : List β),
    traverseOpt f l = some out → ∀ x ∈ l, ∃ y ∈ out, f x = some y := by
  intro l
  induction l with
  | nil => intro out _ x hx; exact absurd hx (List.not_mem_nil x)
  | cons a xs ih =>
    intro out h x hx
    simp only [traverseOpt] at h
    split at h
    · cases h
      rcases List.mem_cons.mp hx with h1 | h1
      · subst h1
        exact ⟨_, List.mem_cons_self _ _, by assumption⟩
      · obtain ⟨y, hy, hfy⟩ := ih _ (by assumption) x h1
        exact ⟨y, List.mem_cons_of_mem _ hy, hfy⟩
    · exact Option.noConfusion h

theorem traverseOpt_mem_bwd (f : α → Option β) : ∀ (l : List α) (out : List β),
    traverseOpt f l = some out → ∀ y ∈ out, ∃ x ∈ l, f x = some y := by
  intro l
  induction l with
  | nil =>
    intro out h y hy
    cases h
    exact absurd hy (List.not_mem_nil y)
  | cons a xs ih =>
    intro out h y hy
    simp only [traverseOpt] at h
    split at h
    · cases h
      rcases List.mem_cons.mp hy with h1 | h1
      · subst h1
        exact ⟨a, List.mem_cons_self _ _, by assumption⟩
      · obtain ⟨x, hx, hfx⟩ := ih _ (by assumption) y h1
        exact ⟨x, List.mem_cons_of_mem _ hx, hfx⟩
    · exact Option.noConfusion h

theorem traverseOpt_eq_none_iff (f : α → Option β) : ∀ (l : List α),
    traverseOpt f l = none ↔ ∃ x ∈ l, f x = none := by
  intro l
  induction l with
  | nil => simp [traverseOpt]
  | cons a xs ih =>
    simp only [traverseOpt]
    constructor
    · intro h
      rcases hfa : f a with _ | y
      · exact ⟨a, List.mem_cons_self _ _, hfa⟩
      · rcases htl : traverseOpt f xs with _ | ys
        · obtain ⟨x, hx, hfx⟩ := ih.mp htl
          exact ⟨x, List.mem_cons_of_mem _ hx, hfx⟩
        · simp [hfa, htl] at h
    · intro ⟨x, hx, hfx⟩
      rcases List.mem_cons.mp hx with h1 | h1
      · subst h1
        rw [hfx]
      · rw [ih.mpr ⟨x, h1, hfx⟩]
        rcases f a with _ | y <;> rfl

/-! Facts about `merge_steps`, `pyFirstWord` and `makeParent`. -/

theorem merge_steps_nil : merge_steps [] = [] := rfl

theorem merge_steps_cons (c : Feature) (cs : List Feature) :
    merge_steps (c :: cs) =
      ("[" ++ status_icon c.passes ++ "] " ++ c.name) ::
        (c.steps.map (fun step => "    - " ++ step) ++ merge_steps cs) := by
  simp [merge_steps]

theorem totalSteps_nil : totalSteps [] = 0 := rfl

theorem totalSteps_cons (f : Feature) (l : List Feature) :
    totalSteps (f :: l) = f.steps.length + totalSteps l := by
  simp [totalSteps]

theorem totalSteps_append (a b : List Feature) :
    totalSteps (a ++ b) = totalSteps a + totalSteps b := by
  simp [totalSteps]

theorem merge_steps_length (g : List Feature) :
    (merge_steps g).length = g.length + totalSteps g := by
  induction g with
  | nil => rfl
  | cons c cs ih =>
    rw [merge_steps_cons, totalSteps_cons]
    simp only [List.length_cons, List.length_append, List.length_map, ih]
    omega

theorem mem_merge_steps (g : List Feature) (r : Feature) (s : String)
    (hr : r ∈ g) (hs : s ∈ r.steps) : ("    - " ++ s) ∈ merge_steps g := by
  unfold merge_steps
  exact List.mem_flatMap.mpr
    ⟨r, hr, List.mem_cons_of_mem _ (List.mem_map.mpr ⟨s, hs, rfl⟩)⟩

theorem pyFirstWord_eq_none_iff (s : String) :
    pyFirstWord s = none ↔ s.data.all pyIsSpace := by
  unfold pyFirstWord
  rcases hd : s.data.dropWhile pyIsSpace with _ | ⟨c, cs⟩
  · constructor
    · intro _
      exact List.all_eq_true.mpr (List.dropWhile_eq_nil_iff.mp hd)
    · intro _; rfl
  · constructor
    · intro h; exact Option.noConfusion h
    · intro h
      have h2 := List.dropWhile_eq_nil_iff.mpr (List.all_eq_true.mp h)
      rw [hd] at h2
      exact absurd h2 (List.cons_ne_nil _ _)

theorem makeParent_cons (category : String) (g0 : Feature) (rest : List Feature) :
    makeParent category (g0 :: rest) =
      (parentNameOpt g0 rest).map (parentRecord category g0 rest) := rfl

theorem makeParent_fields (category : String) (g0 : Feature) (rest : List Feature)
    (p : Feature) (h : makeParent category (g0 :: rest) = some p) :
    p.id = g0.id ∧
    p.priority = rest.foldl (fun a f => min a f.priority) g0.priority ∧
    p.category = category ∧
    p.steps = merge_steps (g0 :: rest) ∧
    p.passes = (g0 :: rest).all Feature.passes ∧
    p.in_progress = (g0 :: rest).any Feature.in_progress ∧
    p.blocked_by_intervention_id = none ∧
    p.deferred = (g0 :: rest).any Feature.deferred := by
  rw [makeParent_cons] at h
  obtain ⟨nm, _, hp⟩ := Option.map_eq_some'.mp h
  subst hp
  simp [parentRecord]

theorem parentNameOpt_eq_none_iff (g0 : Feature) (rest : List Feature) :
    parentNameOpt g0 rest = none ↔ rest ≠ [] ∧ g0.name.data.all pyIsSpace := by
  cases rest with
  | nil => simp [parentNameOpt]
  | cons r rs =>
    rw [show parentNameOpt g0 (r :: rs) =
      (pyFirstWord g0.name).map (fun w => "Implement " ++ w ++ " Subsystem") from rfl]
    rw [Option.map_eq_none', pyFirstWord_eq_none_iff]
    simp

theorem makeParent_eq_none_iff (category : String) (g0 : Feature) (rest : List Feature) :
    makeParent category (g0 :: rest) = none ↔ rest ≠ [] ∧ g0.name.data.all pyIsSpace := by
  rw [makeParent_cons, Option.map_eq_none']
  exact parentNameOpt_eq_none_iff g0 rest

/-! Characterizations of `consolidate_category`. -/

theorem rules_factor_of_ne (c : String) (n : Nat) (hc : c ≠ "Audio System") :
    (get_consolidation_rules c n).consolidation_factor = some 3 := by
  unfold get_consolidation_rules
  rw [if_neg hc]
  by_cases hd : c = "default" <;> simp [hd]

theorem rules_factor_audio (n : Nat) :
    (get_consolidation_rules "Audio System" n).consolidation_factor = none := by
  rfl

theorem consolidate_category_small (l : List Feature) (c : String) (h : l.length ≤ 3) :
    consolidate_category l c = some l := by
  unfold consolidate_category
  rw [if_pos h]

theorem consolidate_category_audio (l : List Feature) :
    consolidate_category l "Audio System" = some l := by
  unfold consolidate_category
  by_cases h : l.length ≤ 3
  · rw [if_pos h]
  · rw [if_neg h]
    simp only [rules_factor_audio, Option.isSome_none, Bool.false_eq_true, if_false]

theorem consolidate_category_factor (l : List Feature) (c : String)
    (hc : c ≠ "Audio System") (h3 : 3 < l.length) :
    consolidate_category l c =
      traverseOpt (makeParent c) (chunkList (if 50 < l.length then 4 else 3) l) := by
  unfold consolidate_category
  rw [if_neg (by omega)]
  simp only [rules_factor_of_ne c l.length hc, Option.isSome_some, if_true]

/-! Step accounting and step preservation per category. -/

theorem totalSteps_traverse (c : String) : ∀ (gs : List (List Feature)) (out : List Feature),
    traverseOpt (makeParent c) gs = some out →
    totalSteps out = (gs.map (fun g => g.length + totalSteps g)).sum := by
  intro gs
  induction gs with
  | nil => intro out h; cases h; rfl
  | cons g gs ih =>
    intro out h
    simp only [traverseOpt] at h
    rcases hfg : makeParent c g with _ | p
    · simp [hfg] at h
    · rcases htl : traverseOpt (makeParent c) gs with _ | ps
      · simp [hfg, htl] at h
      · simp only [hfg, htl] at h
        cases h
        cases g with
        | nil => exact Option.noConfusion hfg
        | cons g0 rest =>
          obtain ⟨_, _, _, hsteps, _, _, _, _⟩ := makeParent_fields c g0 rest p hfg
          rw [List.map_cons, List.sum_cons, totalSteps_cons, hsteps,
            merge_steps_length, ih ps htl]

theorem sum_chunks_spec (gs : List (List Feature)) :
    (gs.map (fun g => g.length + totalSteps g)).sum =
      gs.flatten.length + totalSteps gs.flatten := by
  induction gs with
  | nil => rfl
  | cons g gs ih =>
    simp only [List.map_cons, List.sum_cons, List.flatten_cons, List.length_append,
      totalSteps_append, ih]
    omega

theorem consolidate_category_steps (l : List Feature) (c : String) (out : List Feature)
    (h : consolidate_category l c = some out) :
    totalSteps l ≤ totalSteps out := by
  by_cases h3 : l.length ≤ 3
  · rw [consolidate_category_small l c h3] at h; cases h; exact le_rfl
  · by_cases hc : c = "Audio System"
    · subst hc; rw [consolidate_category_audio] at h; cases h; exact le_rfl
    · rw [consolidate_category_factor l c hc (by omega)] at h
      have h1 := totalSteps_traverse c _ _ h
      rw [sum_chunks_spec, chunkList_flatten] at h1
      omega

theorem consolidate_category_preserves (l : List Feature) (c : String) (out : List Feature)
    (h : consolidate_category l c = some out) (r : Feature) (hr : r ∈ l)
    (s : String) (hs : s ∈ r.steps) :
    ∃ r' ∈ out, ∃ t ∈ r'.steps, s.data <:+: t.data := by
  by_cases h3 : l.length ≤ 3
  · rw [consolidate_category_small l c h3] at h; cases h
    exact ⟨r, hr, s, hs, List.infix_rfl⟩
  · by_cases hc : c = "Audio System"
    · subst hc; rw [consolidate_category_audio] at h; cases h
      exact ⟨r, hr, s, hs, List.infix_rfl⟩
    · rw [consolidate_category_factor l c hc (by omega)] at h
      obtain ⟨g, hg, hrg⟩ := exists_chunk_mem _ l r hr
      obtain ⟨p, hp, hmk⟩ := traverseOpt_mem_fwd _ _ _ h g hg
      cases g with
      | nil => exact Option.noConfusion hmk
      | cons g0 rest =>
        obtain ⟨_, _, _, hsteps, _, _, _, _⟩ := makeParent_fields c g0 rest p hmk
        refine ⟨p, hp, "    - " ++ s, ?_, ?_⟩
        · rw [hsteps]
          exact mem_merge_steps _ r s hrg hs
        · rw [String.data_append]
          exact ⟨"    - ".data, [], by simp⟩

theorem consolidate_category_length (l : List Feature) (c : String) (out : List Feature)
    (hc : c ≠ "Audio System") (h3 : 3 < l.length)
    (h : consolidate_category l c = some out) :
    out.length = (l.length + (if 50 < l.length then 4 else 3) - 1) /
      (if 50 < l.length then 4 else 3) := by
  rw [consolidate_category_factor l c hc h3] at h
  rw [traverseOpt_length _ _ _ h, chunkList_length _ (by split <;> omega) l]

/-! Facts about the category grouping of `consolidate_all`. -/

theorem mem_foldl_distinct : ∀ (cs acc : List String) (x : String),
    (x ∈ acc ∨ x ∈ cs) →
    x ∈ cs.foldl (fun acc c => if c ∈ acc then acc else acc ++ [c]) acc := by
  intro cs
  induction cs with
  | nil =>
    intro acc x h
    rcases h with h | h
    · exact h
    · exact absurd h (List.not_mem_nil x)
  | cons c cs ih =>
    intro acc x h
    simp only [List.foldl_cons]
    apply ih
    by_cases hc : c ∈ acc
    · rw [if_pos hc]
      rcases h with h | h
      · exact Or.inl h
      · rcases List.mem_cons.mp h with h1 | h1
        · exact Or.inl (h1 ▸ hc)
        · exact Or.inr h1
    · rw [if_neg hc]
      rcases h with h | h
      · exact Or.inl (List.mem_append_left _ h)
      · rcases List.mem_cons.mp h with h1 | h1
        · exact Or.inl (List.mem_append_right _ (h1 ▸ List.mem_singleton.mpr rfl))
        · exact Or.inr h1

theorem category_mem_distinct (features : List Feature) (f : Feature) (hf : f ∈ features) :
    f.category ∈ distinctCategories features := by
  unfold distinctCategories
  exact mem_foldl_distinct _ [] f.category (Or.inr (List.mem_map.mpr ⟨f, hf, rfl⟩))

theorem nodup_foldl_distinct : ∀ (cs acc : List String), acc.Nodup →
    (cs.foldl (fun acc c => if c ∈ acc then acc else acc ++ [c]) acc).Nodup := by
  intro cs
  induction cs with
  | nil => intro acc h; exact h
  | cons c cs ih =>
    intro acc h
    simp only [List.foldl_cons]
    apply ih
    by_cases hc : c ∈ acc
    · rw [if_pos hc]; exact h
    · rw [if_neg hc]
      exact List.Nodup.append h (List.nodup_singleton c)
        (List.disjoint_singleton.mpr hc)

theorem nodup_distinctCategories (features : List Feature) :
    (distinctCategories features).Nodup :=
  nodup_foldl_distinct _ [] List.nodup_nil

theorem insertSorted_perm (s : String) : ∀ (l : List String),
    (insertSorted s l).Perm (s :: l) := by
  intro l
  induction l with
  | nil => exact List.Perm.refl _
  | cons t ts ih =>
    unfold insertSorted
    split
    · exact List.Perm.refl _
    · exact (List.Perm.cons t ih).trans (List.Perm.swap s t ts)

theorem sortStrings_perm (l : List String) : (sortStrings l).Perm l := by
  induction l with
  | nil => exact List.Perm.refl _
  | cons x xs ih =>
    show (insertSorted x (sortStrings xs)).Perm (x :: xs)
    exact (insertSorted_perm x _).trans (List.Perm.cons x ih)

theorem mem_sortStrings (l : List String) (x : String) :
    x ∈ sortStrings l ↔ x ∈ l :=
  (sortStrings_perm l).mem_iff

theorem nodup_sortStrings (l : List String) (h : l.Nodup) :
    (sortStrings l).Nodup :=
  ((sortStrings_perm l).nodup_iff).mpr h

/-! Summation over a category partition. -/

theorem sum_map_add_split (cats : List String) (A B : String → Nat) :
    (cats.map (fun c => A c + B c)).sum = (cats.map A).sum + (cats.map B).sum := by
  induction cats with
  | nil => rfl
  | cons c cs ih =>
    simp only [List.map_cons, List.sum_cons, ih]
    omega

theorem sum_ite_not_mem (a : String) (w : Nat) : ∀ (cats : List String), a ∉ cats →
    (cats.map (fun c => if a = c then w else 0)).sum = 0 := by
  intro cats
  induction cats with
  | nil => intro _; rfl
  | cons c cs ih =>
    intro h
    have hac : a ≠ c := fun hc => h (hc ▸ List.mem_cons_self _ _)
    simp only [List.map_cons, List.sum_cons, if_neg hac,
      ih (fun hm => h (List.mem_cons_of_mem _ hm))]

theorem sum_ite_mem (a : String) (w : Nat) : ∀ (cats : List String), cats.Nodup → a ∈ cats →
    (cats.map (fun c => if a = c then w else 0)).sum = w := by
  intro cats
  induction cats with
  | nil => intro _ h; exact absurd h (List.not_mem_nil a)
  | cons c cs ih =>
    intro hnd hm
    rcases List.mem_cons.mp hm with h1 | h1
    · subst h1
      simp only [List.map_cons, List.sum_cons, if_pos rfl,
        sum_ite_not_mem a w cs (List.nodup_cons.mp hnd).1]
      simp
    · have hac : a ≠ c := by
        intro hc; subst hc; exact (List.nodup_cons.mp hnd).1 h1
      simp only [List.map_cons, List.sum_cons, if_neg hac,
        ih (List.nodup_cons.mp hnd).2 h1]
      simp

theorem sum_filter_categories : ∀ (l : List Feature) (cats : List String), cats.Nodup →
    (∀ f ∈ l, f.category ∈ cats) →
    (cats.map (fun c => totalSteps (l.filter (fun f => f.category = c)))).sum =
      totalSteps l := by
  intro l
  induction l with
  | nil =>
    intro cats _ _
    simp only [List.filter_nil, totalSteps_nil]
    simp
  | cons x xs ih =>
    intro cats hnd hcov
    have hx : x.category ∈ cats := hcov x (List.mem_cons_self _ _)
    have hcov' : ∀ f ∈ xs, f.category ∈ cats :=
      fun f hf => hcov f (List.mem_cons_of_mem _ hf)
    have hsplit : ∀ c ∈ cats, totalSteps ((x :: xs).filter (fun f => f.category = c)) =
        (if x.category = c then x.steps.length else 0) +
          totalSteps (xs.filter (fun f => f.category = c)) := by
      intro c _
      by_cases hc : x.category = c
      · simp [List.filter_cons, hc, totalSteps_cons]
      · simp [List.filter_cons, hc]
    rw [List.map_congr_left hsplit, sum_map_add_split,
      sum_ite_mem x.category x.steps.length cats hnd hx, ih cats hnd hcov',
      totalSteps_cons]

/-! Destructuring `consolidate_all`. -/

theorem consolidate_all_some (features out : List Feature) (stats : Stats)
    (h : consolidate_all features = some (out, stats)) :
    ∃ triples, traverseOpt (catResult features)
        (sortStrings (distinctCategories features)) = some triples ∧
      out = triples.flatMap (fun t => t.2.2) := by
  unfold consolidate_all at h
  rcases ht : traverseOpt (catResult features)
      (sortStrings (distinctCategories features)) with _ | triples
  · rw [ht] at h; exact Option.noConfusion h
  · rw [ht] at h
    simp only [Option.map_some'] at h
    refine ⟨triples, rfl, ?_⟩
    injection h with h2
    exact (congrArg Prod.fst h2).symm

theorem steps_le_traverse_cats (features : List Feature) :
    ∀ (cats : List String) (triples : List (String × List Feature × List Feature)),
    traverseOpt (catResult features) cats = some triples →
    (cats.map (fun c => totalSteps (features.filter (fun f => f.category = c)))).sum ≤
      totalSteps (triples.flatMap (fun t => t.2.2)) := by
  intro cats
  induction cats with
  | nil => intro triples h; cases h; exact le_rfl
  | cons c cs ih =>
    intro triples h
    simp only [traverseOpt] at h
    rcases hfc : catResult features c with _ | y
    · simp [hfc] at h
    · rcases htl : traverseOpt (catResult features) cs with _ | ys
      · simp [hfc, htl] at h
      · simp only [hfc, htl] at h
        cases h
        unfold catResult at hfc
        obtain ⟨catOut, hco, hy⟩ := Option.map_eq_some'.mp hfc
        subst hy
        simp only [List.map_cons, List.sum_cons, List.flatMap_cons, totalSteps_append]
        exact Nat.add_le_add (consolidate_category_steps _ _ _ hco) (ih ys htl)

/-! Facts about the migration transaction. -/

theorem execute_migration_error (s : DBState) (cons : List Feature)
    (failAt : Option Nat) (i : Nat) (s' : DBState)
    (h : execute_migration s cons failAt = (Except.error i, s')) : s' = s := by
  unfold execute_migration at h
  cases hr : runOps failAt (migrationOps cons) 0 s with
  | ok s2 => rw [hr] at h; simp at h
  | error j =>
    rw [hr] at h
    exact (congrArg Prod.snd h).symm

theorem runOps_inj_fail (failAt : Option Nat) (k : Nat) (hf : failAt = some k) :
    ∀ (ops : List MigOp) (i : Nat) (s : DBState), i ≤ k → k < i + ops.length →
    ∃ j, runOps failAt ops i s = .error j := by
  intro ops
  induction ops with
  | nil => intro i s h1 h2; simp at h2; omega
  | cons op ops ih =>
    intro i s h1 h2
    by_cases hik : k = i
    · exact ⟨i, by simp [runOps, hf, hik]⟩
    · have hcond : ¬ (failAt = some i) := by
        rw [hf]
        intro hc
        exact hik (Option.some.inj hc)
      rcases happly : applyOp op s with _ | s'
      · exact ⟨i, by simp [runOps, hcond, happly]⟩
      · obtain ⟨j, hj⟩ := ih (i + 1) s' (by omega)
          (by simp only [List.length_cons] at h2; omega)
        exact ⟨j, by simp [runOps, hcond, happly, hj]⟩

theorem previewAction_state (s : DBState) : (previewAction s).2 = s := by
  cases hga : get_all_features s with
  | none => simp [previewAction, hga]
  | some orig =>
    cases hca : consolidate_all orig with
    | none => simp [previewAction, hga, hca]
    | some p =>
      cases p with
      | mk cons stats => simp [previewAction, hga, hca]

/-! The claims. -/

/-- Claim C2, counterexample: `consolidate_category` applied to the
four-record "Audio System" category returns the list unchanged, so a list of
more than 3 records is not always reduced to a strictly shorter one. -/
theorem c2_counterexample :
    3 < audio4.length ∧
    consolidate_category audio4 "Audio System" = some audio4 ∧
    ¬ audio4.length < audio4.length := by decide

/-- Claim C2 (amended): a category of at most 3 records is returned
unchanged; a category of more than 3 records is consolidated to a strictly
shorter list whenever its rules carry a consolidation factor (every category
except "Audio System"); the "Audio System" category is always returned
unchanged. -/
theorem c2_amended_reduction (features : List Feature) (cat : String) :
    (features.length ≤ 3 → consolidate_category features cat = some features) ∧
    (3 < features.length → cat ≠ "Audio System" →
      ∀ out, consolidate_category features cat = some out →
        out.length < features.length) ∧
    (cat = "Audio System" → consolidate_category features cat = some features) := by
  refine ⟨?_, ?_, ?_⟩
  · intro h
    exact consolidate_category_small features cat h
  · intro h3 hcat out hout
    rw [consolidate_category_length features cat out hcat h3 hout]
    split <;> omega
  · intro hcat
    subst hcat
    exact consolidate_category_audio features

/-- Claim C2, witness: the three parts of the amended claim at concrete
inputs — a 3-record category kept as is, a 4-record ordinary category
strictly reduced, a 4-record "Audio System" category kept as is. -/
theorem c2_witness :
    consolidate_category (W4.take 3) "X" = some (W4.take 3) ∧
    ((consolidate_category W4 "X").getD []).length < W4.length ∧
    consolidate_category audio4 "Audio System" = some audio4 :=
  ⟨(c2_amended_reduction (W4.take 3) "X").1 (by decide),
   (c2_amended_reduction W4 "X").2.1 (by decide) (by decide)
     ((consolidate_category W4 "X").getD []) rfl,
   (c2_amended_reduction audio4 "Audio System").2.2 rfl⟩

/-- Claim C3: the hand-authored "Audio System" partition is present in the
rule table (11 groups, no consolidation factor) but `consolidate_category`
never reads it — a category of more than 3 records whose rules carry no
consolidation factor is returned unchanged instead of being partitioned at
the groups' boundaries. -/
theorem c3_groups_unused :
    (get_consolidation_rules "Audio System" audio4.length).groups.length = 11 ∧
    (get_consolidation_rules "Audio System" audio4.length).consolidation_factor = none ∧
    3 < audio4.length ∧
    consolidate_category audio4 "Audio System" = some audio4 := by decide

/-- Claim C4: for a category without the special-case partition, the chunk
factor is 4 when the category holds more than 50 records and 3 otherwise,
so the output count is the ceiling of the record count divided by the
factor; in particular 51 records give 13 outputs and 50 records give 17. -/
theorem c4_chunk_size (features : List Feature) (cat : String) (out : List Feature)
    (hcat : cat ≠ "Audio System") (h3 : 3 < features.length)
    (hout : consolidate_category features cat = some out) :
    out.length = (features.length + (if 50 < features.length then 4 else 3) - 1) /
        (if 50 < features.length then 4 else 3) ∧
    (features.length = 51 → out.length = 13) ∧
    (features.length = 50 → out.length = 17) := by
  have hl := consolidate_category_length features cat out hcat h3 hout
  refine ⟨hl, ?_, ?_⟩
  · intro h51
    rw [h51] at hl
    rw [hl]
    decide
  · intro h50
    rw [h50] at hl
    rw [hl]
    decide

/-- Claim C4, witness: a 51-record category consolidates to 13 records and a
50-record category to 17. -/
theorem c4_witness :
    ((consolidate_category W51 "X").getD []).length = 13 ∧
    ((consolidate_category W50 "X").getD []).length = 17 :=
  ⟨(c4_chunk_size W51 "X" ((consolidate_category W51 "X").getD [])
      (by decide) (by decide) rfl).2.1 (by decide),
   (c4_chunk_size W50 "X" ((consolidate_category W50 "X").getD [])
      (by decide) (by decide) rfl).2.2 (by decide)⟩

/-- Claim C5: every record produced by the chunk-merging path of
`consolidate_category` is synthesized from one chunk, and carries the
chunk's first record's id, the minimum priority of the chunk, the
conjunction of the children's `passes`, the disjunction of their
`in_progress` and of their `deferred`, and a cleared
`blocked_by_intervention_id`. -/
theorem c5_merge_fields (features : List Feature) (cat : String) (out : List Feature)
    (hcat : cat ≠ "Audio System") (h3 : 3 < features.length)
    (hout : consolidate_category features cat = some out) :
    ∀ p ∈ out, ∃ g0 rest,
      (g0 :: rest) ∈ chunkList (if 50 < features.length then 4 else 3) features ∧
      p.id = g0.id ∧
      ((g0 :: rest).map Feature.priority).min? = some p.priority ∧
      p.passes = (g0 :: rest).all Feature.passes ∧
      p.in_progress = (g0 :: rest).any Feature.in_progress ∧
      p.deferred = (g0 :: rest).any Feature.deferred ∧
      p.blocked_by_intervention_id = none := by
  rw [consolidate_category_factor features cat hcat h3] at hout
  intro p hp
  obtain ⟨g, hg, hmk⟩ := traverseOpt_mem_bwd _ _ _ hout p hp
  cases g with
  | nil => exact Option.noConfusion hmk
  | cons g0 rest =>
    obtain ⟨hid, hpr, _, _, hpass, hprog, hblock, hdef⟩ :=
      makeParent_fields cat g0 rest p hmk
    refine ⟨g0, rest, hg, hid, ?_, hpass, hprog, hdef, hblock⟩
    rw [hpr, List.map_cons]
    simp only [List.min?]
    rw [List.foldl_map]

/-- Claim C5, witness: the field rules at the first parent produced from the
four-record category `W4`. -/
theorem c5_witness :
    ∃ g0 rest,
      (g0 :: rest) ∈ chunkList (if 50 < W4.length then 4 else 3) W4 ∧
      (w4out.headI).id = g0.id ∧
      ((g0 :: rest).map Feature.priority).min? = some (w4out.headI).priority ∧
      (w4out.headI).passes = (g0 :: rest).all Feature.passes ∧
      (w4out.headI).in_progress = (g0 :: rest).any Feature.in_progress ∧
      (w4out.headI).deferred = (g0 :: rest).any Feature.deferred ∧
      (w4out.headI).blocked_by_intervention_id = none :=
  c5_merge_fields W4 "X" w4out (by decide) (by decide) rfl w4out.headI (by decide)

/-- Claim C10: on the chunk-merging path, `consolidate_category` fails
(raises, modelled as `none`) exactly when some chunk of more than one record
has a first record whose name is empty or all whitespace — the
`group[0].name.split()[0]` subscript of the parent-name expression. -/
theorem c10_whitespace_name (features : List Feature) (cat : String)
    (hcat : cat ≠ "Audio System") (h3 : 3 < features.length) :
    consolidate_category features cat = none ↔
      ∃ g0 rest,
        (g0 :: rest) ∈ chunkList (if 50 < features.length then 4 else 3) features ∧
        rest ≠ [] ∧ g0.name.data.all pyIsSpace := by
  rw [consolidate_category_factor features cat hcat h3, traverseOpt_eq_none_iff]
  constructor
  · intro ⟨g, hg, hmk⟩
    cases g with
    | nil => exact absurd rfl (chunkList_ne_nil _ features [] hg)
    | cons g0 rest =>
      obtain ⟨hne, hsp⟩ := (makeParent_eq_none_iff cat g0 rest).mp hmk
      exact ⟨g0, rest, hg, hne, hsp⟩
  · intro ⟨g0, rest, hg, hne, hsp⟩
    exact ⟨g0 :: rest, hg, (makeParent_eq_none_iff cat g0 rest).mpr ⟨hne, hsp⟩⟩

/-- Claim C10, witness: a four-record category whose first chunk head is
named "   " makes `consolidate_category` raise. -/
theorem c10_witness : consolidate_category wBad4 "X" = none :=
  (c10_whitespace_name wBad4 "X" (by decide) (by decide)).mpr
    ⟨mkF 1 1 "X" "   " ["a"] true,
     [mkF 2 2 "X" "B" [] true, mkF 3 3 "X" "C" [] true],
     by decide, by decide, by decide⟩

/-- Claim C1, counterexample: in `wDup` the step string "dup" occurs in two
input records that land in different chunks, so after consolidation it is
locatable within two output records, not exactly one. -/
theorem c1_counterexample :
    "dup" ∈ (mkF 1 1 "X" "Alpha one" ["dup"] true).steps ∧
    mkF 1 1 "X" "Alpha one" ["dup"] true ∈ wDup ∧
    (consolidate_all wDup).map
      (fun p => p.1.countP (fun r => decide (stepLocatable "dup" r))) = some 2 ∧
    (2 : Nat) ≠ 1 := by decide

/-- Claim C1 (amended): every step string of every input record is, after
consolidation, locatable as a verbatim substring within the steps field of
at least one output record — no step content is dropped. -/
theorem c1_amended_step_preserved (features out : List Feature) (stats : Stats)
    (h : consolidate_all features = some (out, stats)) :
    ∀ r ∈ features, ∀ s ∈ r.steps, ∃ r' ∈ out, stepLocatable s r' := by
  intro r hr s hs
  obtain ⟨triples, ht, hout⟩ := consolidate_all_some features out stats h
  have hcat : r.category ∈ sortStrings (distinctCategories features) :=
    (mem_sortStrings _ _).mpr (category_mem_distinct features r hr)
  obtain ⟨y, hy, hcy⟩ := traverseOpt_mem_fwd _ _ _ ht r.category hcat
  unfold catResult at hcy
  obtain ⟨catOut, hco, hy2⟩ := Option.map_eq_some'.mp hcy
  have hrcf : r ∈ features.filter (fun f => f.category = r.category) :=
    List.mem_filter.mpr ⟨hr, by simp⟩
  obtain ⟨r', hr', t, ht', hinf⟩ :=
    consolidate_category_preserves _ _ _ hco r hrcf s hs
  refine ⟨r', ?_, t, ht', hinf⟩
  rw [hout]
  refine List.mem_flatMap.mpr ⟨y, hy, ?_⟩
  rw [← hy2]
  exact hr'

/-- Claim C1, witness: the first record's step "dup" of `wDup` is locatable
in the consolidated output. -/
theorem c1_witness : ∃ r' ∈ wDupPair.1, stepLocatable "dup" r' :=
  c1_amended_step_preserved wDup wDupPair.1 wDupPair.2 rfl
    (mkF 1 1 "X" "Alpha one" ["dup"] true) (by decide) "dup" (by decide)

/-- Claim C6: consolidation never lowers the total step count — the merged
parents keep every child step and add one marker line per child. -/
theorem c6_steps_nondecreasing (features out : List Feature) (stats : Stats)
    (h : consolidate_all features = some (out, stats)) :
    totalSteps features ≤ totalSteps out := by
  obtain ⟨triples, ht, hout⟩ := consolidate_all_some features out stats h
  have hnd := nodup_sortStrings _ (nodup_distinctCategories features)
  have hcov : ∀ f ∈ features, f.category ∈ sortStrings (distinctCategories features) :=
    fun f hf => (mem_sortStrings _ _).mpr (category_mem_distinct features f hf)
  have h1 := sum_filter_categories features _ hnd hcov
  have h2 := steps_le_traverse_cats features _ triples ht
  rw [hout]
  omega

/-- Claim C6, witness: the step count of the consolidated `wDup` is not
below the input's. -/
theorem c6_witness : totalSteps wDup ≤ totalSteps wDupPair.1 :=
  c6_steps_nondecreasing wDup wDupPair.1 wDupPair.2 rfl

/-- Claim C7: `validate` fails with an invariant error exactly when the
consolidated count is not strictly below the original count or lies outside
the 250-600 band; a lower total step count only yields the warning outcome,
never a failure. -/
theorem c7_validate_iff (original consolidated : List Feature) :
    ((∃ m, validate original consolidated = ValidateOutcome.invariantError m) ↔
      (¬ consolidated.length < original.length ∨
        ¬ (250 ≤ consolidated.length ∧ consolidated.length ≤ 600))) ∧
    (validate original consolidated = ValidateOutcome.okWarn ↔
      (consolidated.length < original.length ∧
        (250 ≤ consolidated.length ∧ consolidated.length ≤ 600) ∧
        totalSteps consolidated < totalSteps original)) := by
  by_cases h1 : consolidated.length < original.length
  · by_cases h2 : 250 ≤ consolidated.length ∧ consolidated.length ≤ 600
    · by_cases h3 : totalSteps consolidated < totalSteps original
      · simp [validate, h1, h2, h3]
      · simp [validate, h1, h2, h3]
    · simp [validate, h1, h2]
  · simp [validate, h1]

/-- Claim C8: any failure at any point of the migration statement sequence
— staging-table creation, row insertion, or the table swap — aborts the
transaction, surfaces the error with its cause, and leaves the whole store
(in particular the live `features` table, row for row) exactly as it was at
the start of the call; an injected failure inside the sequence always
aborts. -/
theorem c8_migration_atomic (s : DBState) (cons : List Feature) (failAt : Option Nat) :
    (∀ i s', execute_migration s cons failAt = (Except.error i, s') →
      s'.features = s.features ∧ s' = s) ∧
    (∀ k, failAt = some k → k < (migrationOps cons).length →
      ∃ i, (execute_migration s cons failAt).1 = Except.error i) := by
  constructor
  · intro i s' h
    have hs := execute_migration_error s cons failAt i s' h
    exact ⟨by rw [hs], hs⟩
  · intro k hk hlen
    obtain ⟨j, hj⟩ := runOps_inj_fail failAt k hk (migrationOps cons) 0 s
      (Nat.zero_le k) (by omega)
    refine ⟨j, ?_⟩
    unfold execute_migration
    rw [hj]

/-- Claim C8, witness: injecting a failure after the first row insertion
leaves the store intact and surfaces the error. -/
theorem c8_witness :
    dbW = dbW ∧ ∃ i, (execute_migration dbW consW (some 2)).1 = Except.error i :=
  ⟨((c8_migration_atomic dbW consW (some 2)).1 2 dbW rfl).2,
   (c8_migration_atomic dbW consW (some 2)).2 2 rfl (by decide)⟩

/-- Claim C9: the preview action leaves the store untouched, and a second
preview run on the store left behind by the first returns the very same
statistics. -/
theorem c9_preview_pure (s : DBState) :
    (previewAction s).2 = s ∧
    (previewAction ((previewAction s).2)).1 = (previewAction s).1 := by
  refine ⟨previewAction_state s, ?_⟩
  rw [previewAction_state s]

end Consolidation
